import Mathlib

/-!
Shallow embedding of `cdf2cim/io_manager.py` (esdoc-cdf2cim).

The module has four operations:
  * `encode`        -- the "canonicalize" operation on metadata records,
  * `yield_files`   -- the locator ("resolve"),
  * `yield_cf_files`-- the locator chained with the external reader ("resolve_and_open"),
  * `dump`          -- the archiver ("persist").

Python values relevant to `encode` are modelled by the inductive `PyVal`;
machine floats are modelled exactly by rationals (the only float operations the
code performs are the identity conversion `float(...)` and truncation `int(...)`,
both exact on rationals).  File-system state for `dump` is an association list
from path strings to file data (content and modification time).  The directory
tree searched by `yield_files` is a finite tree `FSNode`; paths are lists of
name components of a normalized absolute path (so `os.path.dirname` is
`List.dropLast`, `os.path.abspath` is the identity, and the empty list is the
filesystem root `/`, whose dirname is itself — exactly as in `os.path`).
The model contains no symbolic links.

Python's primitive string operations (`<` for `sorted`, `str.endswith`,
`int(str)`) are modelled executably over the character list of the string.
-/

/-- Python string comparison, as used by `sorted`: lexicographic on the
code points of the characters. -/
def charListLe : List Char → List Char → Bool
  | [], _ => true
  | _ :: _, [] => false
  | a :: as, b :: bs => if a = b then charListLe as bs else decide (a < b)

/-- `a <= b` on Python strings. -/
def strLe (a b : String) : Bool := charListLe a.data b.data

/-- Python `s.endswith(t)`. -/
def strEndsWith (s t : String) : Bool := t.data.isSuffixOf s.data

/-- One step of decimal digit accumulation for `int(str)`. -/
def digitsToNat (acc : Nat) : List Char → Option Nat
  | [] => some acc
  | c :: cs => if c.isDigit then digitsToNat (10 * acc + (c.toNat - 48)) cs else none

/-- Python `int(str)`: an optional sign followed by at least one decimal
digit (whitespace stripping and underscore separators are not modelled; no
claim depends on them). -/
def strToInt : String → Option Int := fun s =>
  match s.data with
  | [] => none
  | '-' :: cs => if cs.isEmpty then none else (digitsToNat 0 cs).map (fun n => -(n : Int))
  | '+' :: cs => if cs.isEmpty then none else (digitsToNat 0 cs).map (fun n => (n : Int))
  | cs => (digitsToNat 0 cs).map (fun n => (n : Int))

/-- A Python value as seen by `encode`/`dump`: numpy 64-bit floats and 32-bit
integers, plain Python floats, ints, strings, and `None`. -/
inductive PyVal where
  | npF64 (q : Rat)
  | npI32 (n : Int)
  | pyFloat (q : Rat)
  | pyInt (n : Int)
  | pyStr (s : String)
  | pyNone
  deriving DecidableEq, Repr

/-- Python `int()` truncates toward zero; on `num/den` this is `Int.tdiv`. -/
def ratTrunc (q : Rat) : Int := Int.tdiv q.num q.den

/-- Python `int(value)`: succeeds on numbers and numeric strings, raises
(`none`) on `None` and non-numeric strings. -/
def pyToInt : PyVal → Option Int
  | .npF64 q => some (ratTrunc q)
  | .npI32 n => some n
  | .pyFloat q => some (ratTrunc q)
  | .pyInt n => some n
  | .pyStr s => strToInt s
  | .pyNone => none

/-- The inner `_encode(key, value)` of `io_manager.encode`: the `isinstance`
checks on the numpy types come first, the `_index` key-suffix rule only third. -/
def encodeVal (key : String) (value : PyVal) : Option PyVal :=
  match value with
  | .npF64 q => some (.pyFloat q)
  | .npI32 n => some (.pyInt n)
  | v =>
    if strEndsWith key "_index" then (pyToInt v).map .pyInt
    else some v

/-- A metadata record: an association list (a Python dict) with string keys. -/
abbrev Record := List (String × PyVal)

/-- The string order used to model Python's `sorted`. -/
def strLeP : String → String → Prop := fun a b => strLe a b = true

instance : DecidableRel strLeP := fun a b => instDecidableEqBool (strLe a b) true

/-- Iteration over the sorted keys of the record, building the ordered result;
`none` models the exception raised when `int()` fails. -/
def encodeEntries (obj : Record) : List String → Option Record
  | [] => some []
  | k :: ks =>
    (obj.lookup k).bind fun v =>
      (encodeVal k v).bind fun w =>
        (encodeEntries obj ks).map ((k, w) :: ·)

/-- `io_manager.encode` ("canonicalize"): keys sorted, each value coerced by
`encodeVal`.  Python dict keys are unique, hence the `dedup`. -/
def encode (obj : Record) : Option Record :=
  encodeEntries obj (List.insertionSort strLeP (obj.map Prod.fst).dedup)

/-- Is the value a numpy 64-bit float?  (Used to state when the `_index`
key-suffix rule is shadowed by the `isinstance(value, numpy.float64)` test.) -/
def PyVal.isNpF64 : PyVal → Bool
  | .npF64 _ => true
  | _ => false

/-- Is the value a plain Python integer? -/
def PyVal.isPlainInt : PyVal → Bool
  | .pyInt _ => true
  | _ => false

/-- No key ending in `_index` maps to a numpy 64-bit float. -/
def noIndexF64 (obj : Record) : Bool :=
  obj.all (fun kv => !(strEndsWith kv.1 "_index" && kv.2.isNpF64))

/-! ### The archiver (`dump`) -/

/-- A file on disk: its content and its modification time. -/
structure FileData where
  content : String
  mtime : Nat
  deriving DecidableEq, Repr

/-- The file-system state touched by `dump`: whether the output directory
exists, and the files in it (path → data). -/
structure FState where
  ioDirOk : Bool
  files : List (String × FileData)
  deriving DecidableEq, Repr

/-- Modelled from the spec: `cdf2cim.constants.IO_DIR` is not under `src/`;
the spec only says it is a fixed, process-wide configured output directory,
so it is a fixed string here (its value is immaterial to every claim). -/
def IO_DIR : String := ".cdf2cim"

set_option linter.unusedVariables false in
/-- Modelled from the spec: `cdf2cim.hashifier.hashify` is not under `src/`;
the spec specifies only that the fingerprint is a deterministic function of
the canonical record and its serialized JSON text ("exact hash algorithm and
input composition are a collaborator concern").  Any Lean function of those
arguments is deterministic; this stand-in returns the serialized text. -/
def hashify (metadata : Record) (metadataJson : String) : String := metadataJson

/-- JSON rendering of one canonical value (`json.dumps` value syntax; the
rational standing in for a float is rendered with `toString`, a faithful
stand-in since only determinism and injectivity on the claims' inputs
matter). -/
def jsonOfVal : PyVal → String
  | .npF64 q => toString q
  | .npI32 n => toString n
  | .pyFloat q => toString q
  | .pyInt n => toString n
  | .pyStr s => "\x22" ++ s ++ "\x22"
  | .pyNone => "null"

/-- `json.dumps(metadata, indent=4)` on the ordered canonical record. -/
def jsonDumps (metadata : Record) : String :=
  "\x7b\n"
    ++ String.intercalate ",\n"
      (metadata.map (fun kv => "    \x22" ++ kv.1 ++ "\x22: " ++ jsonOfVal kv.2))
    ++ "\n\x7d"

/-- `open(fpath, 'w')` followed by `write`: replace any previous file at the
path, stamping the current time. -/
def updateFile (files : List (String × FileData)) (p : String) (d : FileData) :
    List (String × FileData) :=
  (p, d) :: files.filter (fun kv => !(kv.1 == p))

/-- `if not os.path.isdir(IO_DIR): os.mkdir(IO_DIR)`. -/
def mkdirStep (st : FState) : FState :=
  if st.ioDirOk then st else { st with ioDirOk := true }

/-- `if not os.path.isfile(fpath) or overwrite: open(fpath, 'w').write(...)`:
the conditional write of `dump`. -/
def writeStep (st : FState) (fpath content : String) (now : Nat)
    (overwrite : Bool) : FState :=
  if (st.files.lookup fpath).isNone || overwrite then
    { st with files := updateFile st.files fpath ⟨content, now⟩ }
  else st

/-- `io_manager.dump` ("persist").  `now` is the wall clock used as the
modification time of a write; `freshUuid` is the value `uuid.uuid4()` would
return (randomness passed in as an explicit input).  The `Except.error`
result models the exception propagating out of `encode` when `int()` fails;
the state is returned alongside (the directory may already have been
created, as in the code, where `os.mkdir` precedes `encode`). -/
def dump (st : FState) (now : Nat) (freshUuid : String) (obj : Record)
    (name : String) (overwrite : Bool) : Except Unit String × FState :=
  let st := mkdirStep st
  match encode obj with
  | none => (.error (), st)
  | some metadata =>
    let metadataJson := jsonDumps metadata
    let fname := if name = "md5" then hashify metadata metadataJson else freshUuid
    let fpath := IO_DIR ++ "/" ++ fname ++ ".json"
    (.ok fpath, writeStep st fpath metadataJson now overwrite)

/-- The fingerprint-derived artifact path of a record (`name='md5'`). -/
def dumpPath (obj : Record) : Option String :=
  (encode obj).map (fun md => IO_DIR ++ "/" ++ hashify md (jsonDumps md) ++ ".json")

/-! ### The file system searched by the locator -/

/-- A directory tree without symbolic links: a node is a regular file or a
directory with named entries. -/
inductive FSNode where
  | file : FSNode
  | dir (entries : List (String × FSNode)) : FSNode

/-- A normalized absolute path, as its list of name components
(`[] = /`, `["a","b"] = /a/b`). -/
abbrev FPath := List String

/-- Resolve a path in the tree. -/
def FSNode.find : FSNode → FPath → Option FSNode
  | n, [] => some n
  | .file, _ :: _ => none
  | .dir es, c :: p => (es.lookup c).bind (fun child => child.find p)

/-- `os.path.isfile`. -/
def fsIsFile (fs : FSNode) (p : FPath) : Bool :=
  match fs.find p with
  | some .file => true
  | _ => false

/-- `os.path.isdir`. -/
def fsIsDir (fs : FSNode) (p : FPath) : Bool :=
  match fs.find p with
  | some (.dir _) => true
  | _ => false

/-- Is this node a regular file? -/
def FSNode.isFileNode : FSNode → Bool
  | .file => true
  | .dir _ => false

mutual

/-- `os.walk(base, followlinks=True)` restricted to what the code consumes:
the absolute paths of all files below the node, each folder's files before
its subfolders (top-down order). -/
def FSNode.walkFiles : FSNode → FPath → List FPath
  | .file, _ => []
  | .dir es, base =>
    (es.filter (fun e => e.2.isFileNode)).map (fun e => base ++ [e.1])
      ++ FSNode.walkSub es base

/-- Recurse into the subdirectories of a folder, in entry order. -/
def FSNode.walkSub : List (String × FSNode) → FPath → List FPath
  | [], _ => []
  | (name, .dir es) :: rest, base =>
    FSNode.walkFiles (.dir es) (base ++ [name]) ++ FSNode.walkSub rest base
  | (_, .file) :: rest, base => FSNode.walkSub rest base

end

mutual

/-- Well-formedness of the tree model: a real file system gives each entry of
a directory a distinct name. -/
def FSNode.wfB : FSNode → Bool
  | .file => true
  | .dir es => decide ((es.map Prod.fst).Nodup) && FSNode.wfSub es

/-- All entries of a directory are well-formed. -/
def FSNode.wfSub : List (String × FSNode) → Bool
  | [] => true
  | (_, n) :: rest => n.wfB && FSNode.wfSub rest

end

/-! ### The locator (`yield_files`) -/

/-- Order on paths modelling Python's `sorted` over path strings
(component-wise; a proper ancestor sorts before its descendants, which is
the only property of the string order the code's behavior depends on). -/
def pathLe : FPath → FPath → Bool
  | [], _ => true
  | _ :: _, [] => false
  | a :: p, b :: q => if a = b then pathLe p q else strLe a b

/-- The de-dupe loop: `for target in sorted(criteria): if dirname(target) in
criteria: criteria.remove(target)` — membership is tested against the
mutating set `s`, iteration is over the sorted snapshot. -/
def dropChildren : List FPath → List FPath → List FPath
  | [], s => s
  | t :: ts, s => dropChildren ts (if t.dropLast ∈ s then s.erase t else s)

/-- The body of the final loop of `yield_files`: a file criterion yields its
absolute path, a directory criterion yields its recursive walk. -/
def yieldTarget (fs : FSNode) (t : FPath) : List FPath :=
  match fs.find t with
  | some .file => [t]
  | some (.dir es) => FSNode.walkFiles (.dir es) t
  | none => []

/-- The traversal part of `yield_files`, after validation: de-dupe the
criteria set, then yield each surviving target's files. -/
def resolveCriteria (fs : FSNode) (cs : List FPath) : List FPath :=
  let s := cs.dedup
  (dropChildren (List.insertionSort (fun p q => pathLe p q = true) s) s).flatMap
    (yieldTarget fs)

/-- An element of a criteria collection: a (path) string or something else. -/
inductive PyElem where
  | estr (s : FPath)
  | enonStr
  deriving DecidableEq, Repr

/-- The `criteria` argument of `yield_files`: a single string, an iterable
collection, or a non-iterable non-string. -/
inductive PyObj where
  | pstr (s : FPath)
  | piter (xs : List PyElem)
  | nonIter
  deriving DecidableEq, Repr

/-- `isinstance(i, basestring)`. -/
def PyElem.isStr : PyElem → Bool
  | .estr _ => true
  | .enonStr => false

/-- Extract the string. -/
def PyElem.str? : PyElem → Option FPath
  | .estr s => some s
  | .enonStr => none

/-- The checks and traversal of `yield_files` after the single-string wrap:
the two list comprehensions (`not isinstance(i, basestring)`,
`not os.path.exists(i)`) raise `InvalidFileSearchCriteria` carrying the
(wrapped) criteria when nonempty, in source order; otherwise traverse. -/
def yieldChecked (fs : FSNode) (xs : List PyElem) : Except PyObj (List FPath) :=
  if (xs.filter (fun e => !e.isStr)) ≠ [] then .error (.piter xs)
  else if ((xs.filterMap PyElem.str?).filter (fun p => !(fs.find p).isSome)) ≠ [] then
    .error (.piter xs)
  else .ok (resolveCriteria fs (xs.filterMap PyElem.str?))

/-- `io_manager.yield_files` ("resolve"): a single string is wrapped into a
one-element list (so an error for it carries the wrapped list, as in the
code); a non-iterable non-string raises immediately. -/
def yield_files (fs : FSNode) : PyObj → Except PyObj (List FPath)
  | .pstr s => yieldChecked fs [.estr s]
  | .piter xs => yieldChecked fs xs
  | .nonIter => .error .nonIter

/-- The three invalid-criteria classes of the claim: a non-iterable
non-string, a collection with a non-string element, a collection with a
nonexistent path. -/
def invalidCriteriaB (fs : FSNode) : PyObj → Bool
  | .nonIter => true
  | .pstr _ => false
  | .piter xs =>
    xs.any (fun e => !e.isStr)
      || (xs.filterMap PyElem.str?).any (fun p => !(fs.find p).isSome)

/-- Every criterion references an existing file-system entry. -/
def validCriteriaB (fs : FSNode) (cs : List FPath) : Bool :=
  cs.all (fun c => (fs.find c).isSome)

/-- No criterion lies strictly below another at depth ≥ 2 (the code's
de-dupe only removes direct-child redundancy). -/
def ancestorFreeB (cs : List FPath) : Bool :=
  cs.all (fun c => cs.all (fun c' =>
    !(c.isPrefixOf c') || decide (c'.length ≤ c.length + 1)))

/-! ### The reader chain (`yield_cf_files`) -/

/-- Render a path for the warning message. -/
def pathRepr (p : FPath) : String := p.foldl (fun acc c => acc ++ "/" ++ c) ""

/-- The loop body of `yield_cf_files`: try `cf.read` on each path; an
`IOError`/`OSError` is logged as a warning and the path is skipped, a
success is yielded.  Returns (records, warnings), each in encounter order.
(`cf.close_one_file`, pure resource bookkeeping, has no observable effect
in this model.) -/
def readAll {α : Type} (read : FPath → Except String α) : List FPath → List α × List String
  | [] => ([], [])
  | p :: rest =>
    match read p with
    | .error _ =>
      let r := readAll read rest
      (r.1, ("Non netCDF file rejected: " ++ pathRepr p) :: r.2)
    | .ok a =>
      let r := readAll read rest
      (a :: r.1, r.2)

/-- `io_manager.yield_cf_files` ("resolve_and_open"): chain the locator with
the external reader `read` (the `cf.read` collaborator, opaque here). -/
def yield_cf_files {α : Type} (read : FPath → Except String α) (fs : FSNode)
    (targets : PyObj) : Except PyObj (List α × List String) :=
  (yield_files fs targets).map (readAll read)

/-- Did the reader fail on this path with an I/O-class error? -/
def readFails {α : Type} (read : FPath → Except String α) (p : FPath) : Bool :=
  match read p with
  | .error _ => true
  | .ok _ => false

/-! ### Concrete instances used by the witnesses -/

/-- A small concrete record. -/
def exRecord : Record := [("a", .pyInt 1)]

/-- An empty initial file-system state. -/
def exState0 : FState := ⟨false, []⟩

/-- First `dump` of `exRecord` under fingerprint naming. -/
def exDump1 : Except Unit String × FState := dump exState0 1 "u1" exRecord "md5" false

/-- The artifact path returned by that first call. -/
def exPath1 : String :=
  match exDump1.1 with
  | .ok p => p
  | .error _ => ""

/-- The state after that first call. -/
def exState1 : FState := exDump1.2

/-- The canonical form of `exRecord`. -/
def exCanon : Record := [("a", .pyInt 1)]

/-- A state already holding an older artifact at `exRecord`'s fingerprint
path. -/
def exStateOld : FState := ⟨true, [(exPath1, ⟨"old", 0⟩)]⟩

/-- The spec's example tree: `/data/run1` with `a.nc`, `b.nc`, `c.txt`. -/
def exFS : FSNode :=
  .dir [("run1", .dir [("a.nc", .file), ("b.nc", .file), ("c.txt", .file)])]

/-- A concrete reader that accepts `.nc` files (returning the path as the
record) and fails with an I/O-class error on `c.txt`. -/
def exReader : FPath → Except String FPath := fun p =>
  if p = ["run1", "c.txt"] then .error "IOError" else .ok p

/-- A small tree with two non-overlapping criteria for the locator witness. -/
def exFS2 : FSNode :=
  .dir [("d", .dir [("f", .file), ("g", .file)]), ("e", .file)]

/-- The directory/child-file tree for the parent-dedup witness. -/
def exFS4 : FSNode := .dir [("d", .dir [("f", .file)])]

/-! ## Theorems -/

/-! ### Order facts about the modelled Python string order -/

theorem charListLe_total : ∀ as bs, charListLe as bs = true ∨ charListLe bs as = true
  | [], _ => Or.inl rfl
  | _ :: _, [] => Or.inr rfl
  | a :: as, b :: bs => by
    by_cases hab : a = b
    · subst hab
      simpa [charListLe] using charListLe_total as bs
    · rcases lt_or_gt_of_ne hab with h | h
      · exact Or.inl (by simp [charListLe, hab, h])
      · exact Or.inr (by simp [charListLe, Ne.symm hab, h])

theorem charListLe_trans :
    ∀ as bs cs, charListLe as bs = true → charListLe bs cs = true →
      charListLe as cs = true
  | [], _, _, _, _ => rfl
  | _ :: _, [], _, h1, _ => by simp [charListLe] at h1
  | _ :: _, _ :: _, [], _, h2 => by simp [charListLe] at h2
  | a :: as, b :: bs, c :: cs, h1, h2 => by
    by_cases hab : a = b <;> by_cases hbc : b = c
    · subst hab; subst hbc
      simp only [charListLe, if_pos rfl] at h1 h2 ⊢
      exact charListLe_trans as bs cs h1 h2
    · subst hab
      simp only [charListLe, if_pos rfl] at h1
      simpa [charListLe, hbc] using h2
    · subst hbc
      simp only [charListLe, if_pos rfl] at h2
      simpa [charListLe, hab] using h1
    · simp only [charListLe, if_neg hab, decide_eq_true_eq] at h1
      simp only [charListLe, if_neg hbc, decide_eq_true_eq] at h2
      have hac : a < c := lt_trans h1 h2
      simp [charListLe, ne_of_lt hac, hac]

instance : IsTotal String strLeP := ⟨fun a b => charListLe_total a.data b.data⟩

instance : IsTrans String strLeP := ⟨fun a b c => charListLe_trans a.data b.data c.data⟩

/-! ### Association-list facts -/

theorem lookup_cons_self {β : Type} (k : String) (v : β) (l : List (String × β)) :
    ((k, v) :: l).lookup k = some v := by
  simp [List.lookup]

theorem lookup_cons_ne {β : Type} {k k' : String} (v : β) (l : List (String × β))
    (h : ¬k = k') : ((k', v) :: l).lookup k = l.lookup k := by
  have hb : (k == k') = false := by simpa using h
  simp [List.lookup, hb]

theorem mem_of_lookup_some {β : Type} :
    ∀ {l : List (String × β)} {k : String} {v : β}, l.lookup k = some v → (k, v) ∈ l := by
  intro l
  induction l with
  | nil => intro k v h; simp [List.lookup] at h
  | cons e es ih =>
    intro k v h
    obtain ⟨k', v'⟩ := e
    by_cases hk : k = k'
    · subst hk
      rw [lookup_cons_self] at h
      injection h with h
      subst h
      exact List.mem_cons_self _ _
    · rw [lookup_cons_ne _ _ hk] at h
      exact List.mem_cons_of_mem _ (ih h)

theorem lookup_of_mem_nodup {β : Type} :
    ∀ {l : List (String × β)} {k : String} {v : β},
      (l.map Prod.fst).Nodup → (k, v) ∈ l → l.lookup k = some v := by
  intro l
  induction l with
  | nil => intro k v _ h; simp at h
  | cons e es ih =>
    intro k v hnd hm
    obtain ⟨k', v'⟩ := e
    simp only [List.map_cons, List.nodup_cons] at hnd
    rcases List.mem_cons.mp hm with h | h
    · injection h with h1 h2
      subst h1
      subst h2
      exact lookup_cons_self _ _ _
    · have hk : ¬k = k' := by
        rintro rfl
        exact hnd.1 (List.mem_map.mpr ⟨(k, v), h, rfl⟩)
      rw [lookup_cons_ne _ _ hk]
      exact ih hnd.2 h

/-! ### Structure of `encode` -/

theorem encodeEntries_keys {obj : Record} :
    ∀ {ks : List String} {l : Record}, encodeEntries obj ks = some l →
      l.map Prod.fst = ks := by
  intro ks
  induction ks with
  | nil =>
    intro l h
    simp only [encodeEntries] at h
    injection h with h
    subst h
    rfl
  | cons k ks ih =>
    intro l h
    unfold encodeEntries at h
    cases hl : obj.lookup k with
    | none => rw [hl, Option.none_bind] at h; exact absurd h (by simp)
    | some v =>
      rw [hl, Option.some_bind] at h
      cases hw : encodeVal k v with
      | none => rw [hw, Option.none_bind] at h; exact absurd h (by simp)
      | some w =>
        rw [hw, Option.some_bind] at h
        cases he : encodeEntries obj ks with
        | none => rw [he] at h; exact absurd h (by simp)
        | some tl =>
          rw [he] at h
          simp only [Option.map] at h
          injection h with h
          subst h
          simp [ih he]

theorem encodeEntries_mem {obj : Record} :
    ∀ {ks : List String} {l : Record} {k : String} {w : PyVal},
      encodeEntries obj ks = some l → (k, w) ∈ l →
      ∃ v, obj.lookup k = some v ∧ encodeVal k v = some w := by
  intro ks
  induction ks with
  | nil =>
    intro l k w h hm
    simp only [encodeEntries] at h
    injection h with h
    subst h
    simp at hm
  | cons k0 ks ih =>
    intro l k w h hm
    unfold encodeEntries at h
    cases hl : obj.lookup k0 with
    | none => rw [hl, Option.none_bind] at h; exact absurd h (by simp)
    | some v =>
      rw [hl, Option.some_bind] at h
      cases hw : encodeVal k0 v with
      | none => rw [hw, Option.none_bind] at h; exact absurd h (by simp)
      | some w0 =>
        rw [hw, Option.some_bind] at h
        cases he : encodeEntries obj ks with
        | none => rw [he] at h; exact absurd h (by simp)
        | some tl =>
          rw [he] at h
          simp only [Option.map] at h
          injection h with h
          subst h
          rcases List.mem_cons.mp hm with h1 | h1
          · injection h1 with h1a h1b
            subst h1a
            subst h1b
            exact ⟨v, hl, hw⟩
          · exact ih he h1

theorem encodeEntries_self :
    ∀ (full l : Record),
      (∀ k w, (k, w) ∈ l → full.lookup k = some w) →
      (∀ k w, (k, w) ∈ l → encodeVal k w = some w) →
      encodeEntries full (l.map Prod.fst) = some l := by
  intro full l
  induction l with
  | nil => intro _ _; rfl
  | cons e es ih =>
    intro hlook hfix
    obtain ⟨k, w⟩ := e
    have h1 : full.lookup k = some w := hlook k w (List.mem_cons_self _ _)
    have h2 : encodeVal k w = some w := hfix k w (List.mem_cons_self _ _)
    have h3 : encodeEntries full (es.map Prod.fst) = some es :=
      ih (fun k' w' hm => hlook k' w' (List.mem_cons_of_mem _ hm))
        (fun k' w' hm => hfix k' w' (List.mem_cons_of_mem _ hm))
    simp [encodeEntries, h1, h2, h3]

theorem encodeVal_index_fix {k : String} {v w : PyVal}
    (he : strEndsWith k "_index" = true)
    (h : (pyToInt v).map PyVal.pyInt = some w) :
    encodeVal k w = some w := by
  cases hm : pyToInt v with
  | none => rw [hm] at h; exact absurd h (by simp)
  | some m =>
    rw [hm] at h
    simp only [Option.map] at h
    injection h with h
    subst h
    simp [encodeVal, he, pyToInt]

theorem encodeVal_fix {k : String} {v w : PyVal}
    (h : encodeVal k v = some w)
    (hni : (strEndsWith k "_index" && v.isNpF64) = false) :
    encodeVal k w = some w := by
  cases v with
  | npF64 q =>
    have he : strEndsWith k "_index" = false := by
      simpa [PyVal.isNpF64] using hni
    simp only [encodeVal] at h
    injection h with h
    subst h
    simp [encodeVal, he]
  | npI32 n =>
    simp only [encodeVal] at h
    injection h with h
    subst h
    by_cases he : strEndsWith k "_index" = true <;> simp [encodeVal, he, pyToInt]
  | pyFloat q =>
    by_cases he : strEndsWith k "_index" = true
    · simp only [encodeVal, he, if_true] at h
      exact encodeVal_index_fix he h
    · simp only [encodeVal, he, if_false] at h
      injection h with h
      subst h
      simp [encodeVal, he]
  | pyInt n =>
    by_cases he : strEndsWith k "_index" = true
    · simp only [encodeVal, he, if_true] at h
      exact encodeVal_index_fix he h
    · simp only [encodeVal, he, if_false] at h
      injection h with h
      subst h
      simp [encodeVal, he]
  | pyStr s =>
    by_cases he : strEndsWith k "_index" = true
    · simp only [encodeVal, he, if_true] at h
      exact encodeVal_index_fix he h
    · simp only [encodeVal, he, if_false] at h
      injection h with h
      subst h
      simp [encodeVal, he]
  | pyNone =>
    by_cases he : strEndsWith k "_index" = true
    · simp only [encodeVal, he, if_true] at h
      exact encodeVal_index_fix he h
    · simp only [encodeVal, he, if_false] at h
      injection h with h
      subst h
      simp [encodeVal, he]

/-- C2 (counterexample): `canonicalize` is NOT idempotent as claimed: for the
record `{"foo_index": numpy.float64(3.0)}` the first application turns the
value into the plain float `3.0` (the `isinstance(value, numpy.float64)`
branch fires before the `_index` key rule), and the second application then
converts that plain float to the integer `3`, changing the value's type. -/
theorem encode_not_idempotent :
    (encode [("foo_index", PyVal.npF64 3)]).bind encode
      ≠ encode [("foo_index", PyVal.npF64 3)] := by decide

/-- C2 (amended): `canonicalize` is idempotent on every record in which no
key ending in `_index` holds a numpy 64-bit float value: if
`encode obj = some r'` then `encode r' = some r'`, equality of ordered
association lists, so key order and every value's type are preserved. -/
theorem encode_idempotent_noF64 (obj r' : Record)
    (hni : noIndexF64 obj = true) (h : encode obj = some r') :
    encode r' = some r' := by
  unfold encode at h
  have hkeys : r'.map Prod.fst = List.insertionSort strLeP (obj.map Prod.fst).dedup :=
    encodeEntries_keys h
  have hsorted : List.Sorted strLeP (List.insertionSort strLeP (obj.map Prod.fst).dedup) :=
    List.sorted_insertionSort strLeP _
  have hnodup : (List.insertionSort strLeP (obj.map Prod.fst).dedup).Nodup :=
    (List.perm_insertionSort strLeP _).nodup_iff.mpr (List.nodup_dedup _)
  unfold encode
  rw [hkeys, List.dedup_eq_self.mpr hnodup, hsorted.insertionSort_eq, ← hkeys]
  apply encodeEntries_self
  · intro k w hm
    exact lookup_of_mem_nodup (hkeys ▸ hnodup) hm
  · intro k w hm
    obtain ⟨v, hlv, hev⟩ := encodeEntries_mem h hm
    have hmem : (k, v) ∈ obj := mem_of_lookup_some hlv
    have hall : (!(strEndsWith k "_index" && v.isNpF64)) = true :=
      List.all_eq_true.mp hni _ hmem
    have hfalse : (strEndsWith k "_index" && v.isNpF64) = false := by
      cases hb : (strEndsWith k "_index" && v.isNpF64) with
      | false => rfl
      | true => rw [hb] at hall; simp at hall
    exact encodeVal_fix hev hfalse

/-- C2 (witness): a concrete record satisfying the hypotheses. -/
theorem encode_idempotent_noF64_witness :
    noIndexF64 [("a", PyVal.npF64 3), ("b_index", PyVal.pyStr "7")] = true ∧
    encode [("a", PyVal.npF64 3), ("b_index", PyVal.pyStr "7")]
      = some [("a", PyVal.pyFloat 3), ("b_index", PyVal.pyInt 7)] ∧
    encode [("a", PyVal.pyFloat 3), ("b_index", PyVal.pyInt 7)]
      = some [("a", PyVal.pyFloat 3), ("b_index", PyVal.pyInt 7)] :=
  ⟨by decide, by decide,
    encode_idempotent_noF64 [("a", PyVal.npF64 3), ("b_index", PyVal.pyStr "7")]
      [("a", PyVal.pyFloat 3), ("b_index", PyVal.pyInt 7)] (by decide) (by decide)⟩

/-- C5 (counterexample): the key-suffix override does NOT take priority over
the type-based rules: for the record `{"foo_index": numpy.float64(3.0)}`,
canonicalize returns the plain float `3.0`, not a plain integer. -/
theorem encode_index_not_always_int :
    (encode [("foo_index", PyVal.npF64 3)]).map (fun r => r.all (fun kv => kv.2.isPlainInt))
      = some false := by decide

theorem isPlainInt_of_map {v w : PyVal}
    (h : (pyToInt v).map PyVal.pyInt = some w) : w.isPlainInt = true := by
  cases hm : pyToInt v with
  | none => rw [hm] at h; exact absurd h (by simp)
  | some m =>
    rw [hm] at h
    simp only [Option.map] at h
    injection h with h
    subst h
    rfl

theorem encodeVal_index_int {k : String} {v w : PyVal}
    (hk : strEndsWith k "_index" = true) (hnf : v.isNpF64 = false)
    (hev : encodeVal k v = some w) : w.isPlainInt = true := by
  cases v with
  | npF64 q => simp [PyVal.isNpF64] at hnf
  | npI32 n =>
    simp only [encodeVal] at hev
    injection hev with hev
    subst hev
    rfl
  | pyFloat q =>
    simp only [encodeVal, hk, if_true] at hev
    exact isPlainInt_of_map hev
  | pyInt n =>
    simp only [encodeVal, hk, if_true] at hev
    exact isPlainInt_of_map hev
  | pyStr str =>
    simp only [encodeVal, hk, if_true] at hev
    exact isPlainInt_of_map hev
  | pyNone =>
    simp only [encodeVal, hk, if_true] at hev
    exact isPlainInt_of_map hev

/-- C5 (amended): for every record entry whose key ends in `_index` and
whose value is not a `numpy.float64`, canonicalize produces a plain
integer value — `numpy.int32` via its `isinstance` rule, everything else
via `int()`; only a `numpy.float64` value escapes, because its
`isinstance` rule fires before the key-suffix rule and yields a plain
float.  In particular `foo_index` with plain float `3.0` canonicalizes to
integer `3` (see the witness). -/
theorem encode_index_int (obj r' : Record) (k : String) (v w : PyVal)
    (hk : strEndsWith k "_index" = true)
    (hlv : obj.lookup k = some v) (hnf : v.isNpF64 = false)
    (h : encode obj = some r') (hm : (k, w) ∈ r') :
    w.isPlainInt = true := by
  unfold encode at h
  obtain ⟨v2, hlv2, hev⟩ := encodeEntries_mem h hm
  rw [hlv] at hlv2
  injection hlv2 with hlv2
  subst hlv2
  exact encodeVal_index_int hk hnf hev

/-- C5 (witness): a `numpy.int32` under `a_index` and a plain float `3.0`
under `b_index` both canonicalize to plain integers; the theorem is applied
at the `numpy.int32` entry. -/
theorem encode_index_int_witness :
    strEndsWith "a_index" "_index" = true ∧
    ([("a_index", PyVal.npI32 5), ("b_index", PyVal.pyFloat 3)] : Record).lookup "a_index"
      = some (PyVal.npI32 5) ∧
    (PyVal.npI32 5).isNpF64 = false ∧
    encode [("a_index", PyVal.npI32 5), ("b_index", PyVal.pyFloat 3)]
      = some [("a_index", PyVal.pyInt 5), ("b_index", PyVal.pyInt 3)] ∧
    ("a_index", PyVal.pyInt 5)
      ∈ [("a_index", PyVal.pyInt 5), ("b_index", PyVal.pyInt 3)] ∧
    (PyVal.pyInt 5).isPlainInt = true :=
  ⟨by decide, by decide, by decide, by decide, by decide,
    encode_index_int [("a_index", PyVal.npI32 5), ("b_index", PyVal.pyFloat 3)]
      [("a_index", PyVal.pyInt 5), ("b_index", PyVal.pyInt 3)] "a_index"
      (PyVal.npI32 5) (PyVal.pyInt 5)
      (by decide) (by decide) (by decide) (by decide) (by decide)⟩

/-- C10: `canonicalize` is not total: a key ending in `_index` whose value
cannot be converted by `int()` (here `None`) makes `encode` raise, and
`persist` on such a record fails (propagates the error) leaving the file
map untouched — nothing is serialized or written. -/
theorem encode_index_raises :
    encode [("foo_index", PyVal.pyNone)] = none ∧
    ∀ (st : FState) (now : Nat) (u name : String) (ow : Bool),
      (dump st now u [("foo_index", PyVal.pyNone)] name ow).1 = .error () ∧
      (dump st now u [("foo_index", PyVal.pyNone)] name ow).2.files = st.files := by
  refine ⟨by decide, ?_⟩
  intro st now u name ow
  have h : encode [("foo_index", PyVal.pyNone)] = none := by decide
  constructor
  · simp [dump, h]
  · simp only [dump, h]
    unfold mkdirStep
    split
    · rfl
    · rfl

example : encode [("b", .pyStr "x"), ("a_index", .pyStr "7")]
    = some [("a_index", .pyInt 7), ("b", .pyStr "x")] := by decide

example : encode [("foo_index", .npF64 3)] = some [("foo_index", .pyFloat 3)] := by decide

example : encode [("foo_index", .pyFloat 3)] = some [("foo_index", .pyInt 3)] := by decide

example : encode [("foo_index", .pyNone)] = none := by decide

example : exDump1 = (.ok exPath1, exState1) := by rfl

example : resolveCriteria (.dir [("d", .dir [("sub", .dir [("f", .file)])])])
    [["d"], ["d","sub","f"]] = [["d","sub","f"], ["d","sub","f"]] := by decide

example : resolveCriteria (.dir [("f", .file)]) [[], ["f"]] = [["f"]] := by decide

example : resolveCriteria (.dir [("f", .file)]) [[]] = [] := by decide

example : resolveCriteria (.dir [("d", .dir [("f", .file)])]) [["d"], ["d","f"]]
    = [["d","f"]] := by decide

example : yield_files (.dir []) (.piter [.enonStr]) = .error (.piter [.enonStr]) := rfl

example : dump exState1 2 "u2" exRecord "md5" false = (.ok exPath1, exState1) := by rfl


/-! ### The archiver's write policy -/

theorem mkdirStep_ioDirOk (st : FState) : (mkdirStep st).ioDirOk = true := by
  unfold mkdirStep
  by_cases hs : st.ioDirOk <;> simp [hs]

theorem mkdirStep_fix {st : FState} (h : st.ioDirOk = true) : mkdirStep st = st := by
  unfold mkdirStep
  simp [h]

theorem writeStep_ioDirOk (st : FState) (fpath c : String) (now : Nat) (ow : Bool) :
    (writeStep st fpath c now ow).ioDirOk = st.ioDirOk := by
  unfold writeStep
  split <;> rfl

theorem writeStep_lookup_isSome (st : FState) (fpath c : String) (now : Nat) (ow : Bool) :
    ((writeStep st fpath c now ow).files.lookup fpath).isSome = true := by
  unfold writeStep
  split
  · exact congrArg Option.isSome (lookup_cons_self _ _ _)
  · rename_i hcond
    cases hl : st.files.lookup fpath with
    | none => rw [hl] at hcond; simp at hcond
    | some d => simp [hl]

theorem writeStep_skip {st : FState} {fpath : String} (c : String) (now : Nat)
    (h : (st.files.lookup fpath).isSome = true) :
    writeStep st fpath c now false = st := by
  have hn : (st.files.lookup fpath).isNone = false := by
    cases hl : st.files.lookup fpath with
    | none => rw [hl] at h; simp at h
    | some d => rfl
  unfold writeStep
  simp [hn]

theorem writeStep_overwrite (st : FState) (fpath c : String) (now : Nat) :
    (writeStep st fpath c now true).files.lookup fpath = some ⟨c, now⟩ := by
  unfold writeStep
  simp only [Bool.or_true, if_true]
  exact lookup_cons_self _ _ _

/-- C1: under fingerprint naming with `overwrite=false`, a second `persist`
of the same record is a no-op: it returns the same path as the first call
and leaves the file-system state (hence the artifact's content and
modification time) exactly as the first call left it, even at a later
clock `now2` and with a different fresh UUID `u2`. -/
theorem dump_md5_idempotent (st st1 : FState) (p : String) (obj : Record)
    (now1 now2 : Nat) (u1 u2 : String)
    (h : dump st now1 u1 obj "md5" false = (.ok p, st1)) :
    dump st1 now2 u2 obj "md5" false = (.ok p, st1) := by
  cases he : encode obj with
  | none => simp [dump, he] at h
  | some md =>
    simp only [dump, he] at h
    rw [Prod.mk.injEq] at h
    obtain ⟨h1, h2⟩ := h
    injection h1 with h1
    subst h1
    subst h2
    simp [dump, he, writeStep_skip, writeStep_lookup_isSome, mkdirStep_fix,
      writeStep_ioDirOk, mkdirStep_ioDirOk]

/-- C1 (witness): a concrete double `persist`. -/
theorem dump_md5_idempotent_witness :
    dump exState0 1 "u1" exRecord "md5" false = (.ok exPath1, exState1) ∧
    dump exState1 2 "u2" exRecord "md5" false = (.ok exPath1, exState1) :=
  ⟨rfl, dump_md5_idempotent exState0 exState1 exPath1 exRecord 1 2 "u1" "u2" rfl⟩

set_option linter.unusedVariables false in
/-- C7: `persist` with `overwrite=true` when an artifact (of any prior
content `d`, identical content included) already exists at the
fingerprint-derived path rewrites the file: afterwards the artifact holds
the freshly serialized content with the current modification time `now`. -/
theorem dump_overwrite_rewrites (st : FState) (now : Nat) (u : String)
    (obj md : Record) (d : FileData)
    (henc : encode obj = some md)
    (hex : st.files.lookup (IO_DIR ++ "/" ++ hashify md (jsonDumps md) ++ ".json")
      = some d) :
    (dump st now u obj "md5" true).1
      = .ok (IO_DIR ++ "/" ++ hashify md (jsonDumps md) ++ ".json") ∧
    (dump st now u obj "md5" true).2.files.lookup
      (IO_DIR ++ "/" ++ hashify md (jsonDumps md) ++ ".json")
      = some ⟨jsonDumps md, now⟩ := by
  constructor
  · simp [dump, henc]
  · simp [dump, henc, writeStep_overwrite]

/-- C7 (witness): overwriting an existing artifact at the fingerprint path. -/
theorem dump_overwrite_rewrites_witness :
    encode exRecord = some exCanon ∧
    exStateOld.files.lookup
        (IO_DIR ++ "/" ++ hashify exCanon (jsonDumps exCanon) ++ ".json")
      = some ⟨"old", 0⟩ ∧
    ((dump exStateOld 5 "u" exRecord "md5" true).1
        = .ok (IO_DIR ++ "/" ++ hashify exCanon (jsonDumps exCanon) ++ ".json") ∧
      (dump exStateOld 5 "u" exRecord "md5" true).2.files.lookup
          (IO_DIR ++ "/" ++ hashify exCanon (jsonDumps exCanon) ++ ".json")
        = some ⟨jsonDumps exCanon, 5⟩) :=
  ⟨rfl, rfl, dump_overwrite_rewrites exStateOld 5 "u" exRecord exCanon ⟨"old", 0⟩ rfl rfl⟩

/-- C9: any naming mode other than `'md5'` — including misspellings — is
silently treated as the UUID mode: no validation, no error, and the artifact
path is built from the freshly generated UUID. -/
theorem dump_unknown_name_uuid (st : FState) (now : Nat) (u : String)
    (obj md : Record) (name : String) (ow : Bool)
    (hname : name ≠ "md5") (henc : encode obj = some md) :
    (dump st now u obj name ow).1 = .ok (IO_DIR ++ "/" ++ u ++ ".json") := by
  simp [dump, henc, hname]

/-- C9 (witness): the misspelled mode `"MD5"` selects the UUID name. -/
theorem dump_unknown_name_uuid_witness :
    ("MD5" : String) ≠ "md5" ∧ encode exRecord = some exCanon ∧
    (dump exState0 3 "fresh-uuid" exRecord "MD5" false).1
      = .ok (IO_DIR ++ "/" ++ "fresh-uuid" ++ ".json") :=
  ⟨by decide, rfl,
    dump_unknown_name_uuid exState0 3 "fresh-uuid" exRecord exCanon "MD5" false
      (by decide) rfl⟩

/-! ### Locator validation -/

/-- C6: each invalid criteria class — a non-iterable non-string, a
collection containing a non-string element, or a collection containing a
nonexistent path — makes `yield_files` raise `InvalidFileSearchCriteria`
carrying the offending input; no path is ever produced (the result is the
error, not a partial list), so no file is read. -/
theorem yield_files_invalid (fs : FSNode) (c : PyObj)
    (h : invalidCriteriaB fs c = true) : yield_files fs c = .error c := by
  cases c with
  | nonIter => rfl
  | pstr s => simp [invalidCriteriaB] at h
  | piter xs =>
    simp only [invalidCriteriaB, Bool.or_eq_true] at h
    show yieldChecked fs xs = .error (.piter xs)
    unfold yieldChecked
    by_cases h1 : xs.filter (fun e => !e.isStr) ≠ []
    · rw [if_pos h1]
    · rw [if_neg h1]
      rw [not_ne_iff] at h1
      rcases h with h | h
      · exfalso
        obtain ⟨e, he, hpe⟩ := List.any_eq_true.mp h
        exact absurd hpe (by simpa using List.filter_eq_nil_iff.mp h1 e he)
      · rw [if_pos]
        obtain ⟨q, hq, hpq⟩ := List.any_eq_true.mp h
        intro hnil
        exact absurd hpq (by simpa using List.filter_eq_nil_iff.mp hnil q hq)

/-- C6 (witness): a collection containing a non-string element. -/
theorem yield_files_invalid_witness :
    invalidCriteriaB (.dir []) (.piter [.enonStr]) = true ∧
    yield_files (.dir []) (.piter [.enonStr]) = .error (.piter [.enonStr]) :=
  ⟨by decide, yield_files_invalid (.dir []) (.piter [.enonStr]) (by decide)⟩

/-! ### The reader chain -/

theorem readAll_eq {α : Type} (read : FPath → Except String α) :
    ∀ paths : List FPath,
      readAll read paths
        = (paths.filterMap (fun p => (read p).toOption),
           (paths.filter (readFails read)).map
             (fun p => "Non netCDF file rejected: " ++ pathRepr p))
  | [] => rfl
  | p :: rest => by
    unfold readAll
    cases hr : read p with
    | error e =>
      simp [readAll_eq read rest, hr, readFails, Except.toOption, List.filterMap_cons,
        List.filter_cons]
    | ok a =>
      simp [readAll_eq read rest, hr, readFails, Except.toOption, List.filterMap_cons,
        List.filter_cons]

/-- C8: for every path sequence the locator resolves, the reader chain
absorbs per-file I/O failures: a path on which `read` fails contributes no
record but one logged warning, the error never propagates (the overall
result stays `ok`), and every other path still contributes its record, in
order. -/
theorem yield_cf_files_skips {α : Type} (read : FPath → Except String α)
    (fs : FSNode) (targets : PyObj) (paths : List FPath)
    (h : yield_files fs targets = .ok paths) :
    yield_cf_files read fs targets
      = .ok (paths.filterMap (fun p => (read p).toOption),
             (paths.filter (readFails read)).map
               (fun p => "Non netCDF file rejected: " ++ pathRepr p)) := by
  unfold yield_cf_files
  rw [h]
  show Except.ok (readAll read paths) = _
  rw [readAll_eq read paths]

/-- C8 (witness): the spec's example — `run1` holding `a.nc`, `b.nc`,
`c.txt`, reader rejecting `c.txt` — gives exactly two records and one
warning. -/
theorem yield_cf_files_skips_witness :
    yield_files exFS (.pstr ["run1"])
      = .ok [["run1", "a.nc"], ["run1", "b.nc"], ["run1", "c.txt"]] ∧
    yield_cf_files exReader exFS (.pstr ["run1"])
      = .ok ([["run1", "a.nc"], ["run1", "b.nc"]],
             ["Non netCDF file rejected: /run1/c.txt"]) :=
  ⟨rfl,
    (yield_cf_files_skips exReader exFS (.pstr ["run1"])
      [["run1", "a.nc"], ["run1", "b.nc"], ["run1", "c.txt"]] rfl).trans rfl⟩

/-! ### Locator traversal: well-formedness and soundness of the walk -/

theorem wfB_dir {es : List (String × FSNode)} (h : FSNode.wfB (.dir es) = true) :
    (es.map Prod.fst).Nodup ∧ FSNode.wfSub es = true := by
  unfold FSNode.wfB at h
  rw [Bool.and_eq_true] at h
  exact ⟨by simpa using h.1, h.2⟩

theorem wfSub_mem : ∀ {es : List (String × FSNode)} {name : String} {n : FSNode},
    FSNode.wfSub es = true → (name, n) ∈ es → n.wfB = true := by
  intro es
  induction es with
  | nil => intro name n _ h; simp at h
  | cons e rest ih =>
    intro name n hwf hm
    obtain ⟨ename, enode⟩ := e
    unfold FSNode.wfSub at hwf
    rw [Bool.and_eq_true] at hwf
    rcases List.mem_cons.mp hm with h | h
    · injection h with h1 h2
      subst h2
      exact hwf.1
    · exact ih hwf.2 h

theorem find_wf : ∀ (p : FPath) (fs n : FSNode), fs.wfB = true →
    fs.find p = some n → n.wfB = true
  | [], fs, n, hwf, h => by
    simp only [FSNode.find] at h
    injection h with h
    subst h
    exact hwf
  | c :: p, fs, n, hwf, h => by
    cases fs with
    | file => simp [FSNode.find] at h
    | dir es =>
      simp only [FSNode.find] at h
      cases hl : es.lookup c with
      | none => rw [hl, Option.none_bind] at h; exact absurd h (by simp)
      | some child =>
        rw [hl, Option.some_bind] at h
        have hcw : child.wfB = true := wfSub_mem (wfB_dir hwf).2 (mem_of_lookup_some hl)
        exact find_wf p child n hcw h

theorem find_append : ∀ (p q : FPath) (n : FSNode),
    n.find (p ++ q) = (n.find p).bind (fun m => m.find q)
  | [], q, n => by simp [FSNode.find]
  | c :: p, q, n => by
    cases n with
    | file => simp [FSNode.find]
    | dir es =>
      simp only [List.cons_append, FSNode.find]
      cases hl : es.lookup c with
      | none => simp
      | some child => simp [find_append p q child]

mutual

theorem walkFiles_sound : ∀ (fs : FSNode) (base p : FPath), fs.wfB = true →
    p ∈ fs.walkFiles base → ∃ s, s ≠ [] ∧ p = base ++ s ∧ fs.find s = some .file
  | .file, base, p, _, h => by simp [FSNode.walkFiles] at h
  | .dir es, base, p, hwf, h => by
    unfold FSNode.walkFiles at h
    rcases List.mem_append.mp h with hfp | hsp
    · obtain ⟨e, hef, rfl⟩ := List.mem_map.mp hfp
      have hmem := (List.mem_filter.mp hef).1
      have hisf := (List.mem_filter.mp hef).2
      refine ⟨[e.1], by simp, rfl, ?_⟩
      have hnd := (wfB_dir hwf).1
      have hlk : es.lookup e.1 = some e.2 := lookup_of_mem_nodup hnd (by exact hmem)
      have hfile : e.2 = .file := by
        cases h2 : e.2 with
        | file => rfl
        | dir _ => rw [h2] at hisf; simp [FSNode.isFileNode] at hisf
      simp [FSNode.find, hlk, hfile]
    · obtain ⟨name, node, s, hmem, hne, rfl, hfind⟩ :=
        walkSub_sound es base p (wfB_dir hwf).2 hsp
      have hnd := (wfB_dir hwf).1
      have hlk : es.lookup name = some node := lookup_of_mem_nodup hnd hmem
      refine ⟨name :: s, by simp, rfl, ?_⟩
      simp [FSNode.find, hlk, hfind]

theorem walkSub_sound : ∀ (es : List (String × FSNode)) (base p : FPath),
    FSNode.wfSub es = true → p ∈ FSNode.walkSub es base →
    ∃ name node s, (name, node) ∈ es ∧ s ≠ [] ∧ p = base ++ name :: s ∧
      node.find s = some .file
  | [], base, p, _, h => by simp [FSNode.walkSub] at h
  | (ename, .dir es') :: rest, base, p, hwf, h => by
    unfold FSNode.walkSub at h
    unfold FSNode.wfSub at hwf
    rw [Bool.and_eq_true] at hwf
    rcases List.mem_append.mp h with h1 | h1
    · obtain ⟨s, hne, rfl, hfind⟩ := walkFiles_sound (.dir es') (base ++ [ename]) p hwf.1 h1
      exact ⟨ename, .dir es', s, List.mem_cons_self _ _, hne, by simp, hfind⟩
    · obtain ⟨name, node, s, hmem, hne, rfl, hfind⟩ := walkSub_sound rest base p hwf.2 h1
      exact ⟨name, node, s, List.mem_cons_of_mem _ hmem, hne, rfl, hfind⟩
  | (ename, .file) :: rest, base, p, hwf, h => by
    unfold FSNode.walkSub at h
    unfold FSNode.wfSub at hwf
    rw [Bool.and_eq_true] at hwf
    obtain ⟨name, node, s, hmem, hne, rfl, hfind⟩ := walkSub_sound rest base p hwf.2 h
    exact ⟨name, node, s, List.mem_cons_of_mem _ hmem, hne, rfl, hfind⟩

end

mutual

theorem walkFiles_nodup : ∀ (fs : FSNode) (base : FPath), fs.wfB = true →
    (fs.walkFiles base).Nodup
  | .file, base, _ => by simp [FSNode.walkFiles]
  | .dir es, base, hwf => by
    unfold FSNode.walkFiles
    rw [List.nodup_append]
    refine ⟨?_, walkSub_nodup es base (wfB_dir hwf).1 (wfB_dir hwf).2, ?_⟩
    · have h1 : ((es.filter (fun e => e.2.isFileNode)).map Prod.fst).Nodup :=
        (wfB_dir hwf).1.sublist ((List.filter_sublist es).map Prod.fst)
      have h2 : (es.filter (fun e => e.2.isFileNode)).map (fun e => base ++ [e.1])
          = ((es.filter (fun e => e.2.isFileNode)).map Prod.fst).map
              (fun n => base ++ [n]) := by
        rw [List.map_map]
        rfl
      rw [h2]
      refine List.Nodup.map ?_ h1
      intro a b hab
      have := List.append_cancel_left hab
      injection this
    · intro p hp1 hp2
      obtain ⟨e, _, rfl⟩ := List.mem_map.mp hp1
      obtain ⟨name, node, s, _, hne, heq, _⟩ :=
        walkSub_sound es base _ (wfB_dir hwf).2 hp2
      have hlen := congrArg List.length heq
      simp [List.length_append] at hlen
      exact hne (by simpa using hlen)

theorem walkSub_nodup : ∀ (es : List (String × FSNode)) (base : FPath),
    (es.map Prod.fst).Nodup → FSNode.wfSub es = true → (FSNode.walkSub es base).Nodup
  | [], base, _, _ => by simp [FSNode.walkSub]
  | (ename, .dir es') :: rest, base, hnd, hwf => by
    unfold FSNode.walkSub
    unfold FSNode.wfSub at hwf
    rw [Bool.and_eq_true] at hwf
    rw [List.map_cons, List.nodup_cons] at hnd
    rw [List.nodup_append]
    refine ⟨walkFiles_nodup (.dir es') (base ++ [ename]) hwf.1,
      walkSub_nodup rest base hnd.2 hwf.2, ?_⟩
    intro p hp1 hp2
    obtain ⟨s, hne, rfl, _⟩ := walkFiles_sound (.dir es') (base ++ [ename]) p hwf.1 hp1
    obtain ⟨name, node, s', hmem, hne', heq, _⟩ := walkSub_sound rest base _ hwf.2 hp2
    rw [List.append_assoc] at heq
    have hcons : ename :: s = name :: s' := List.append_cancel_left heq
    have hnm : ename = name := by injection hcons
    exact hnd.1 (hnm ▸ List.mem_map.mpr ⟨(name, node), hmem, rfl⟩)
  | (ename, .file) :: rest, base, hnd, hwf => by
    unfold FSNode.walkSub
    unfold FSNode.wfSub at hwf
    rw [Bool.and_eq_true] at hwf
    rw [List.map_cons, List.nodup_cons] at hnd
    exact walkSub_nodup rest base hnd.2 hwf.2

end

theorem yieldTarget_sound {fs : FSNode} {t p : FPath} (hwf : fs.wfB = true)
    (h : p ∈ yieldTarget fs t) : (∃ s, p = t ++ s) ∧ fs.find p = some .file := by
  unfold yieldTarget at h
  split at h
  · rename_i heq
    simp at h
    subst h
    exact ⟨⟨[], by simp⟩, by simpa using heq⟩
  · rename_i es heq
    have hwfd := find_wf t fs _ hwf heq
    obtain ⟨s, hne, rfl, hfind⟩ := walkFiles_sound _ t p hwfd h
    exact ⟨⟨s, rfl⟩, by rw [find_append, heq, Option.some_bind]; exact hfind⟩
  · simp at h

theorem yieldTarget_nodup {fs : FSNode} {t : FPath} (hwf : fs.wfB = true) :
    (yieldTarget fs t).Nodup := by
  unfold yieldTarget
  split
  · simp
  · rename_i es heq
    exact walkFiles_nodup _ t (find_wf t fs _ hwf heq)
  · simp

/-! ### The criteria de-dupe loop -/

theorem dropChildren_sub : ∀ (ts s : List FPath), dropChildren ts s ⊆ s
  | [], _ => fun _ h => h
  | t :: ts, s => by
    unfold dropChildren
    intro a ha
    by_cases hc : t.dropLast ∈ s
    · rw [if_pos hc] at ha
      exact List.erase_subset _ _ (dropChildren_sub ts _ ha)
    · rw [if_neg hc] at ha
      exact dropChildren_sub ts s ha

theorem dropChildren_nodup : ∀ (ts s : List FPath), s.Nodup → (dropChildren ts s).Nodup
  | [], _, h => h
  | t :: ts, s, h => by
    unfold dropChildren
    by_cases hc : t.dropLast ∈ s
    · rw [if_pos hc]
      exact dropChildren_nodup ts _ (h.erase t)
    · rw [if_neg hc]
      exact dropChildren_nodup ts s h

theorem dropChildren_no_parent : ∀ (ts s : List FPath), s.Nodup → ∀ t, t ∈ ts →
    t ∈ dropChildren ts s → t.dropLast ∉ dropChildren ts s
  | [], s, _, t, ht, _ => absurd ht (by simp)
  | t0 :: ts, s, hnd, t, ht, hin => by
    unfold dropChildren at hin ⊢
    by_cases hc : t0.dropLast ∈ s
    · rw [if_pos hc] at hin ⊢
      by_cases htt : t ∈ ts
      · exact dropChildren_no_parent ts _ (hnd.erase t0) t htt hin
      · have ht0 : t = t0 := by
          rcases List.mem_cons.mp ht with h | h
          · exact h
          · exact absurd h htt
        subst ht0
        have hts : t ∈ s.erase t := dropChildren_sub ts _ hin
        rw [List.Nodup.mem_erase_iff hnd] at hts
        exact absurd rfl hts.1
    · rw [if_neg hc] at hin ⊢
      by_cases htt : t ∈ ts
      · exact dropChildren_no_parent ts s hnd t htt hin
      · have ht0 : t = t0 := by
          rcases List.mem_cons.mp ht with h | h
          · exact h
          · exact absurd h htt
        subst ht0
        intro hdl
        exact hc (dropChildren_sub ts s hdl)

/-! ### Path prefix facts -/

theorem isPrefixOf_iff_append : ∀ (t t' : FPath), t.isPrefixOf t' = true ↔ ∃ r, t' = t ++ r
  | [], t' => by simp [List.isPrefixOf]
  | a :: t, [] => by simp [List.isPrefixOf]
  | a :: t, b :: t' => by
    simp only [List.isPrefixOf, Bool.and_eq_true, beq_iff_eq]
    constructor
    · rintro ⟨rfl, h⟩
      obtain ⟨r, rfl⟩ := (isPrefixOf_iff_append t t').mp h
      exact ⟨r, rfl⟩
    · rintro ⟨r, h⟩
      injection h with h1 h2
      subst h1
      exact ⟨rfl, (isPrefixOf_iff_append t t').mpr ⟨r, h2⟩⟩

theorem append_eq_append_comparable : ∀ (t t' s s' : FPath), t ++ s = t' ++ s' →
    (∃ r, t' = t ++ r) ∨ (∃ r, t = t' ++ r)
  | [], t', _, _, _ => .inl ⟨t', rfl⟩
  | a :: t, [], _, _, _ => .inr ⟨a :: t, rfl⟩
  | a :: t, b :: t', s, s', h => by
    simp only [List.cons_append] at h
    injection h with h1 h2
    subst h1
    rcases append_eq_append_comparable t t' s s' h2 with ⟨r, hr⟩ | ⟨r, hr⟩
    · exact .inl ⟨r, by rw [List.cons_append, ← hr]⟩
    · exact .inr ⟨r, by rw [List.cons_append, ← hr]⟩

theorem dropLastAppend (t : FPath) (x : String) : (t ++ [x]).dropLast = t := by
  simp

theorem ancestorFree_spec {cs : List FPath} (h : ancestorFreeB cs = true) :
    ∀ c ∈ cs, ∀ c' ∈ cs, c.isPrefixOf c' = true → c'.length ≤ c.length + 1 := by
  intro c hc c' hc' hp
  have h1 := List.all_eq_true.mp h c hc
  have h2 := List.all_eq_true.mp h1 c' hc'
  simpa [hp] using h2

/-- C3 (counterexample): even with no symbolic links, `resolve` CAN yield
the same absolute path twice for valid criteria: the de-dupe loop only
removes a criterion whose *immediate parent* is a criterion, so for the
valid criteria set `{/d, /d/sub/f}` (deeper-ancestor redundancy) the file
`/d/sub/f` is yielded twice — once by `/d`'s walk and once as its own
criterion. -/
theorem resolve_dup_counterexample :
    FSNode.wfB (.dir [("d", .dir [("sub", .dir [("f", .file)])])]) = true ∧
    validCriteriaB (.dir [("d", .dir [("sub", .dir [("f", .file)])])])
      [["d"], ["d", "sub", "f"]] = true ∧
    resolveCriteria (.dir [("d", .dir [("sub", .dir [("f", .file)])])])
      [["d"], ["d", "sub", "f"]] = [["d", "sub", "f"], ["d", "sub", "f"]] ∧
    ¬ (resolveCriteria (.dir [("d", .dir [("sub", .dir [("f", .file)])])])
      [["d"], ["d", "sub", "f"]]).Nodup :=
  ⟨by decide, by decide, by decide, by decide⟩

/-- C3 (amended): on a well-formed, symlink-free tree, `resolve` never
yields a path that is not a regular file — for every criteria set; and it
never yields the same absolute path twice provided additionally that no
criterion lies strictly below another criterion at depth ≥ 2 (the code's
de-dupe removes only direct-child redundancy, so deeper-ancestor overlap
can duplicate). -/
theorem resolve_amended (fs : FSNode) (cs : List FPath) (hwf : fs.wfB = true) :
    (∀ p ∈ resolveCriteria fs cs, fsIsFile fs p = true) ∧
    (ancestorFreeB cs = true → (resolveCriteria fs cs).Nodup) := by
  unfold resolveCriteria
  have hSsub : dropChildren
      (List.insertionSort (fun p q => pathLe p q = true) cs.dedup) cs.dedup ⊆ cs.dedup :=
    dropChildren_sub _ _
  constructor
  · intro p hp
    obtain ⟨t, htS, hpt⟩ := List.mem_flatMap.mp hp
    have hfind := (yieldTarget_sound hwf hpt).2
    unfold fsIsFile
    rw [hfind]
  · intro hanc
    refine List.nodup_flatMap.mpr ⟨fun t _ => yieldTarget_nodup hwf, ?_⟩
    have hSnd : (dropChildren
        (List.insertionSort (fun p q => pathLe p q = true) cs.dedup) cs.dedup).Nodup :=
      dropChildren_nodup _ _ (List.nodup_dedup cs)
    have key : ∀ a b, a ∈ dropChildren
          (List.insertionSort (fun p q => pathLe p q = true) cs.dedup) cs.dedup →
        b ∈ dropChildren
          (List.insertionSort (fun p q => pathLe p q = true) cs.dedup) cs.dedup →
        ∀ r, r ≠ [] → b = a ++ r → False := by
      intro a b haS hbS r hr hab
      have hale : b.length ≤ a.length + 1 :=
        ancestorFree_spec hanc a (List.mem_dedup.mp (hSsub haS))
          b (List.mem_dedup.mp (hSsub hbS))
          ((isPrefixOf_iff_append a b).mpr ⟨r, hab⟩)
      have hlen : b.length = a.length + r.length := by
        rw [hab, List.length_append]
      have hr0 : r.length ≠ 0 := fun h0 => hr (List.length_eq_zero.mp h0)
      obtain ⟨x, rfl⟩ : ∃ x, r = [x] := by
        cases r with
        | nil => exact absurd rfl hr
        | cons x rs =>
          cases rs with
          | nil => exact ⟨x, rfl⟩
          | cons y ys => simp at hlen; omega
      have hbdrop : b.dropLast = a := by
        rw [hab]
        exact dropLastAppend a x
      have hbts : b ∈ List.insertionSort (fun p q => pathLe p q = true) cs.dedup := by
        rw [List.mem_insertionSort]
        exact hSsub hbS
      have hnp := dropChildren_no_parent _ cs.dedup (List.nodup_dedup cs) b hbts hbS
      rw [hbdrop] at hnp
      exact hnp haS
    refine hSnd.imp_of_mem ?_
    intro a b ha hb hneq p hpa hpb
    obtain ⟨⟨s1, hpeq1⟩, _⟩ := yieldTarget_sound hwf hpa
    obtain ⟨⟨s2, hpeq2⟩, _⟩ := yieldTarget_sound hwf hpb
    have heq : a ++ s1 = b ++ s2 := by rw [← hpeq1, ← hpeq2]
    rcases append_eq_append_comparable a b s1 s2 heq with ⟨r, hr⟩ | ⟨r, hr⟩
    · refine key a b ha hb r ?_ hr
      rintro rfl
      exact hneq (by simpa using hr.symm)
    · refine key b a hb ha r ?_ hr
      rintro rfl
      exact hneq (by simpa using hr)

/-- C3 (witness): two non-overlapping criteria on a well-formed tree. -/
theorem resolve_amended_witness :
    FSNode.wfB exFS2 = true ∧ ancestorFreeB [["d"], ["e"]] = true ∧
    (∀ p ∈ resolveCriteria exFS2 [["d"], ["e"]], fsIsFile exFS2 p = true) ∧
    (resolveCriteria exFS2 [["d"], ["e"]]).Nodup :=
  ⟨by decide, by decide,
    (resolve_amended exFS2 [["d"], ["e"]] (by decide)).1,
    (resolve_amended exFS2 [["d"], ["e"]] (by decide)).2 (by decide)⟩

/-- C4 (counterexample): the parent-dedup identity FAILS when the directory
is the filesystem root: `os.path.dirname('/') == '/'`, so the root criterion
removes *itself* from the set.  Resolving `{/, /f}` yields `/f` (the root is
gone but `/f` survives), while resolving `{/}` alone yields nothing — the
two path sets differ. -/
theorem resolve_root_counterexample :
    fsIsDir (.dir [("f", .file)]) [] = true ∧
    fsIsFile (.dir [("f", .file)]) ["f"] = true ∧
    (["f"] : FPath).dropLast = [] ∧
    resolveCriteria (.dir [("f", .file)]) [[], ["f"]] = [["f"]] ∧
    resolveCriteria (.dir [("f", .file)]) [[]] = [] :=
  ⟨by decide, by decide, by decide, by decide, by decide⟩

set_option linter.unusedVariables false in
/-- C4 (amended): for every *non-root* directory criterion `D` and file
criterion `F` whose immediate parent is `D`, resolving `{D, F}` yields
exactly the same paths as resolving `{D}` alone: the de-dupe loop drops `F`
because its dirname `D` is in the criteria set. -/
theorem resolve_parent_child (fs : FSNode) (D F : FPath) (x : String)
    (hD : D ≠ []) (hF : F = D ++ [x])
    (hdir : fsIsDir fs D = true) (hfile : fsIsFile fs F = true) :
    resolveCriteria fs [D, F] = resolveCriteria fs [D] := by
  subst hF
  have hDF : D ≠ D ++ [x] := by
    intro h
    have := congrArg List.length h
    simp at this
  have hlenD : D.dropLast.length = D.length - 1 := List.length_dropLast D
  have hDpos : 0 < D.length := List.length_pos.mpr hD
  have hnd1 : D.dropLast ≠ D := by
    intro h
    have := congrArg List.length h
    omega
  have hnd2 : D.dropLast ≠ D ++ [x] := by
    intro h
    have := congrArg List.length h
    simp [hlenD] at this
  have herase : ([D, D ++ [x]] : List FPath).erase (D ++ [x]) = [D] := by
    simp [List.erase_cons, hDF]
  have hdedup2 : ([D, D ++ [x]] : List FPath).dedup = [D, D ++ [x]] := by
    rw [List.dedup_eq_self]
    exact List.nodup_cons.mpr ⟨by simp [hDF], List.nodup_singleton _⟩
  have hdedup1 : ([D] : List FPath).dedup = [D] := by
    rw [List.dedup_eq_self]
    exact List.nodup_singleton _
  have hsort1 : List.insertionSort (fun p q => pathLe p q = true) [D] = [D] := by
    simp [List.insertionSort, List.orderedInsert]
  have hdc1 : dropChildren [D, D ++ [x]] [D, D ++ [x]] = [D] := by
    unfold dropChildren
    rw [if_neg (by simp [hnd1, hnd2])]
    unfold dropChildren
    rw [dropLastAppend, if_pos (by simp), herase]
    rfl
  have hdc2 : dropChildren [D ++ [x], D] [D, D ++ [x]] = [D] := by
    unfold dropChildren
    rw [dropLastAppend, if_pos (by simp), herase]
    unfold dropChildren
    rw [if_neg (by simp [hnd1])]
    rfl
  have hdc3 : dropChildren [D] [D] = [D] := by
    unfold dropChildren
    rw [if_neg (by simp [hnd1])]
    rfl
  simp only [resolveCriteria]
  rw [hdedup2, hdedup1, hsort1, hdc3]
  by_cases hle : pathLe D (D ++ [x]) = true
  · rw [show List.insertionSort (fun p q => pathLe p q = true) [D, D ++ [x]]
        = [D, D ++ [x]] from by simp [List.insertionSort, List.orderedInsert, hle]]
    rw [hdc1]
  · rw [show List.insertionSort (fun p q => pathLe p q = true) [D, D ++ [x]]
        = [D ++ [x], D] from by simp [List.insertionSort, List.orderedInsert, hle]]
    rw [hdc2]

/-- C4 (witness): a concrete non-root directory with a child file. -/
theorem resolve_parent_child_witness :
    (["d"] : FPath) ≠ [] ∧ (["d", "f"] : FPath) = ["d"] ++ ["f"] ∧
    fsIsDir exFS4 ["d"] = true ∧ fsIsFile exFS4 ["d", "f"] = true ∧
    resolveCriteria exFS4 [["d"], ["d", "f"]] = resolveCriteria exFS4 [["d"]] :=
  ⟨by decide, rfl, by decide, by decide,
    resolve_parent_child exFS4 ["d"] ["d", "f"] "f" (by decide) rfl (by decide) (by decide)⟩
